import Mathlib

set_option maxHeartbeats 1000000
set_option maxRecDepth 10000

/-!
Shallow embedding of `src/main.go` (package `main` of the
`launch_last_releases` tool).

Modelling conventions, fixed once for the whole file:

* Go strings are byte strings.  We model them as `List Nat` (each element a
  byte value `< 256`): Go `len`, slicing (`s[:n]`) and concatenation are the
  corresponding byte-list operations.  This matters because the program mixes
  byte-based operations (`len`, slicing in `truncateString`) with rune-based
  ones (`fmt` width padding) on multi-byte UTF-8 text.
* `time.Time` values are modelled as `Nat` instants; `t1.Before(t2)` is
  `t1 < t2` (archive modification times are linearly ordered instants).
* `int64` values (entry sizes) are modelled as `Int`.
* Go's `map` types are modelled as total functions: a `map[string][]FileRecord`
  is a function defaulting to `[]` on absent keys (Go's zero-value lookup for a
  slice is `nil`, which ranges and appends like the empty slice), and a
  `map[string]FileRecord` used only through `determineLatestReleases` writes
  is a function into `Option FileRecord` (`none` for absent keys).
-/

/-- A Go string, as its list of UTF-8 bytes. -/
abbrev GoStr := List Nat

/-- The `FileRecord` struct of `main.go`:
`Name`, `ModTime`, `ArchivePath`, `ArchiveName`, `Size`. -/
structure FileRecord where
  name : GoStr
  modTime : Nat
  archivePath : GoStr
  archiveName : GoStr
  size : Int
deriving DecidableEq, Repr

/-- The order the program sorts by: `versions` is sorted ascending for the
strict comparison `versions[i].ModTime.Before(versions[j].ModTime)` exactly
when it is pairwise nondecreasing in `ModTime`, i.e. sorted for `recLe`. -/
def recLe (a b : FileRecord) : Prop := a.modTime ≤ b.modTime

instance recLeDecidable : DecidableRel recLe := fun a b => Nat.decLe a.modTime b.modTime

instance recLeTotal : IsTotal FileRecord recLe := ⟨fun a b => Nat.le_total a.modTime b.modTime⟩

instance recLeTrans : IsTrans FileRecord recLe := ⟨fun _ _ _ h1 h2 => Nat.le_trans h1 h2⟩

/-- Postcondition of the call `sort.Slice(versions, func(i, j int) bool {
return versions[i].ModTime.Before(versions[j].ModTime) })` in
`determineLatestReleases` (main.go lines 95-97), relating the slice contents
before (`xs`) and after (`ys`) the call.

`sort.Slice` guarantees that afterwards the slice is a permutation of its
previous contents that is sorted with respect to the given `less` function
(no element is `Before` an earlier one, i.e. nondecreasing `ModTime`).  It is
explicitly documented as NOT guaranteed to be stable, so nothing more about
the relative order of records with equal `ModTime` may be assumed; the model
is therefore a relation over all compliant outcomes.

The third clause records one additional behaviour of the implementation that
a second run over an already-sorted slice exercises: the Go sort
(insertion sort below 13 elements; the increasing-hint/partial-insertion-sort
fast path of pattern-defeating quicksort above, Go 1.19+) returns a slice that
is already sorted for `less` unchanged. -/
def sortSliceSpec (xs ys : List FileRecord) : Prop :=
  ys.Perm xs ∧ ys.Sorted recLe ∧ (xs.Sorted recLe → ys = xs)

/-- The grouping map `allFiles : map[string][]FileRecord`. -/
abbrev GroupMap := GoStr → List FileRecord

/-- The resolution map `latest : map[string]FileRecord`, with `none` for
absent keys. -/
abbrev ResMap := GoStr → Option FileRecord

/-- The `determineLatestReleases` function of main.go (lines 86-104), as a
relation between its input map `allFiles`, the state `allFilesAfter` of that
map after the call (the function sorts each per-name slice in place), and the
returned map `latest`.  It is a relation rather than a function only because
the `sort.Slice` call leaves the order of records with equal `ModTime`
unspecified (see `sortSliceSpec`).

Per name: a group with zero records is skipped (`len(versions) == 0`), which
coincides with the absent-key case in the total-function model; otherwise the
group is sorted ascending by `ModTime` and its last element
`versions[len(versions)-1]` is stored.  Both cases give exactly
`List.getLast?` of the slice after sorting. -/
def determineLatestReleases (allFiles allFilesAfter : GroupMap) (latest : ResMap) : Prop :=
  ∀ k, sortSliceSpec (allFiles k) (allFilesAfter k) ∧ latest k = (allFilesAfter k).getLast?

/-- Formalisation of the spec's tie-break rule, used only to STATE claim C1
(it is not part of the program model): the record appearing last in input
order among those attaining the maximal `ModTime` — what a stable ascending
sort followed by taking the last element would select. -/
def specLastMaxRecord (vs : List FileRecord) : Option FileRecord :=
  vs.foldl
    (fun acc r =>
      match acc with
      | none => some r
      | some m => if m.modTime ≤ r.modTime then some r else some m)
    none

/-- At least two distinct records of `vs` share the maximal `modTime`
(the precondition of claim C1). -/
def twoShareMax (vs : List FileRecord) : Prop :=
  ∃ a ∈ vs, ∃ b ∈ vs, a ≠ b ∧ a.modTime = b.modTime ∧ ∀ x ∈ vs, x.modTime ≤ a.modTime

/-- Decidability of list permutation (via count equality at the members of
both sides), used to check concrete witnesses and counterexamples by
`decide`. -/
instance permDecidable {α : Type _} [DecidableEq α] (xs ys : List α) :
    Decidable (xs.Perm ys) :=
  decidable_of_iff
    ((∀ x ∈ xs, xs.count x = ys.count x) ∧ ∀ y ∈ ys, xs.count y = ys.count y)
    (by
      constructor
      · rintro ⟨h1, h2⟩
        refine List.perm_iff_count.mpr fun a => ?_
        by_cases hx : a ∈ xs
        · exact h1 a hx
        · by_cases hy : a ∈ ys
          · exact h2 a hy
          · rw [List.count_eq_zero_of_not_mem hx, List.count_eq_zero_of_not_mem hy]
      · intro h
        exact ⟨fun x _ => h.count_eq x, fun y _ => h.count_eq y⟩)

instance sortSliceSpecDecidable (xs ys : List FileRecord) : Decidable (sortSliceSpec xs ys) := by
  unfold sortSliceSpec
  infer_instance

instance twoShareMaxDecidable (vs : List FileRecord) : Decidable (twoShareMax vs) := by
  unfold twoShareMax
  infer_instance

/-! ### Byte-level model of the Go strings used by the report writer -/

/-- UTF-8 encoding of one character, for turning Lean string literals into the
byte strings Go sees. -/
def utf8EncodeByteList (c : Char) : List Nat :=
  let n := c.toNat
  if n < 128 then [n]
  else if n < 2048 then [192 + n / 64, 128 + n % 64]
  else if n < 65536 then [224 + n / 4096, 128 + n / 64 % 64, 128 + n % 64]
  else [240 + n / 262144, 128 + n / 4096 % 64, 128 + n / 64 % 64, 128 + n % 64]

/-- The UTF-8 bytes of a string literal (what a Go string literal contains). -/
def strBytes (s : String) : GoStr :=
  s.data.foldr (fun c acc => utf8EncodeByteList c ++ acc) []

/-- Lower bound for the first continuation byte after leading byte `b`
(Go `unicode/utf8` accept ranges: `0xE0` requires `0xA0..`, `0xF0` requires
`0x90..`, otherwise `0x80..`). -/
def contLo (b : Nat) : Nat := if b = 224 then 160 else if b = 240 then 144 else 128

/-- Upper bound for the first continuation byte after leading byte `b`
(`0xED` allows `..0x9F`, `0xF4` allows `..0x8F`, otherwise `..0xBF`). -/
def contHi (b : Nat) : Nat := if b = 237 then 159 else if b = 244 then 143 else 191

/-- Byte-in-range check for UTF-8 continuation bytes. -/
def byteInRange (lo hi b : Nat) : Bool := decide (lo ≤ b ∧ b ≤ hi)

/-- Number of bytes of the UTF-8 sequence starting with leading byte `b` and
followed by `rest`, per Go's `unicode/utf8` accept ranges; any invalid or
truncated sequence decodes as `RuneError` with size 1. -/
def runeSize (b : Nat) (rest : GoStr) : Nat :=
  if b < 128 then 1
  else if b < 194 then 1
  else if b < 224 then
    match rest with
    | c1 :: _ => if byteInRange (contLo b) (contHi b) c1 then 2 else 1
    | _ => 1
  else if b < 240 then
    match rest with
    | c1 :: c2 :: _ =>
      if byteInRange (contLo b) (contHi b) c1 && byteInRange 128 191 c2 then 3 else 1
    | _ => 1
  else if b < 245 then
    match rest with
    | c1 :: c2 :: c3 :: _ =>
      if byteInRange (contLo b) (contHi b) c1 && byteInRange 128 191 c2 &&
          byteInRange 128 191 c3 then 4
      else 1
    | _ => 1
  else 1

/-- Rune counting loop, structurally recursive on a fuel argument so that it
reduces inside the kernel; each step consumes at least one byte, so any fuel
of at least the remaining byte count gives the true count. -/
def goRuneCountAux : Nat → GoStr → Nat
  | _, [] => 0
  | 0, _ :: _ => 0
  | fuel + 1, b :: rest => goRuneCountAux fuel (rest.drop (runeSize b rest - 1)) + 1

/-- Model of Go `utf8.RuneCountInString` on a byte string: counts one rune per
decoded sequence, advancing by `runeSize` bytes each time.  `fmt` measures
string field widths with this count. -/
def goRuneCount (s : GoStr) : Nat := goRuneCountAux s.length s

/-- Model of `fmt`'s `%-Ns` verb: left-justify, padding with spaces (byte 32)
up to a minimum width of `w` RUNES (Go's `fmt` measures string widths in
runes via `utf8.RuneCountInString`, not bytes). -/
def padLeftJust (s : GoStr) (w : Nat) : GoStr :=
  s ++ List.replicate (w - goRuneCount s) 32

/-- The `truncateString` function of main.go (lines 143-148): Go `len` and
slicing count BYTES, so a string whose byte length exceeds `maxLen` is cut at
`maxLen-3` bytes (possibly splitting a multi-byte rune) and `"..."` is
appended.  The program only calls it with `maxLen = 50`. -/
def truncateString (s : GoStr) (maxLen : Nat) : GoStr :=
  if s.length ≤ maxLen then s else s.take (maxLen - 3) ++ strBytes ("...")

/-- The rendered name column of one data row of `writeResultsToFile`
(main.go lines 128-129): `fmt.Sprintf("%-50s ...", truncateString(record.Name, 50), ...)`. -/
def renderedNameField (name : GoStr) : GoStr :=
  padLeftJust (truncateString name 50) 50

/-- The `header` string of `writeResultsToFile` (main.go line 115):
`fmt.Sprintf("%-50s %-20s %-10s %s\n", "Файл", "Дата релиза", "Размер", "Архив")`. -/
def header : GoStr :=
  padLeftJust (strBytes ("Файл")) 50 ++ [32] ++
    padLeftJust (strBytes ("Дата релиза")) 20 ++ [32] ++
    padLeftJust (strBytes ("Размер")) 10 ++ [32] ++
    strBytes ("Архив") ++ [10]

/-- The `divider` string of `writeResultsToFile` (main.go line 116):
`strings.Repeat("-", len(header)) + "\n"` — `len(header)` is the BYTE length
of the whole header string, including its trailing newline byte. -/
def divider : GoStr :=
  List.replicate header.length 45 ++ [10]

/-! ### Model of `extractFileInfoFromArchive` and the orchestrating loop -/

/-- A path separator byte (`/` or `\`). -/
def isPathSep (b : Nat) : Bool := decide (b = 47) || decide (b = 92)

/-- Model of `filepath.Base`: empty path gives `"."`; otherwise trailing
separators are dropped and the last path element is returned (`"/"` when the
path consists only of separators).  The Windows volume-name special case is
omitted; no claim depends on `ArchiveName`. -/
def goFilepathBase (p : GoStr) : GoStr :=
  if p = [] then [46]
  else
    let r := p.reverse.dropWhile isPathSep
    if r = [] then [47]
    else (r.takeWhile (fun b => !isPathSep b)).reverse

/-- One entry of a ZIP archive's central directory as the program consumes it:
its stored name `f.Name`, the directory flag `f.FileInfo().IsDir()`, and the
uncompressed size `f.FileInfo().Size()`. -/
structure ZipEntry where
  name : GoStr
  isDir : Bool
  size : Int
deriving DecidableEq, Repr

/-- An opaque Go `error` value. -/
structure GoError where
  msg : GoStr
deriving DecidableEq, Repr

/-- The `extractFileInfoFromArchive` function of main.go (lines 52-83).  Its
two interactions with the outside world are passed in explicitly:
`statResult` is `os.Stat(archivePath)` reduced to the archive's modification
time (the only field used), and `openResult` is `zip.OpenReader(archivePath)`
reduced to the list of central-directory entries.  Either failure is returned
as the function's error, in the source's order (stat first).  Otherwise one
record per non-directory entry is produced: the entry's name and size paired
with the ARCHIVE's modification time. -/
def extractFileInfoFromArchive (archivePath : GoStr)
    (statResult : Except GoError Nat) (openResult : Except GoError (List ZipEntry)) :
    Except GoError (List FileRecord) :=
  match statResult with
  | .error e => .error e
  | .ok archiveModTime =>
    match openResult with
    | .error e => .error e
    | .ok entries =>
      .ok ((entries.filter (fun f => !f.isDir)).map (fun f =>
        { name := f.name
          modTime := archiveModTime
          archivePath := archivePath
          archiveName := goFilepathBase archivePath
          size := f.size }))

/-- What the filesystem answers for one archive path during the run:
the `os.Stat` result and the `zip.OpenReader` result. -/
structure ArchiveView where
  stat : Except GoError Nat
  zipr : Except GoError (List ZipEntry)

/-- The filesystem as seen by the run. -/
abbrev FSModel := GoStr → ArchiveView

/-- One archive inspection as `main` performs it. -/
def inspectArchive (fs : FSModel) (p : GoStr) : Except GoError (List FileRecord) :=
  extractFileInfoFromArchive p (fs p).stat (fs p).zipr

/-- One step of `main`'s accumulation loop (main.go lines 179-181):
`allFiles[file.Name] = append(allFiles[file.Name], file)`. -/
def addRecord (m : GroupMap) (f : FileRecord) : GroupMap :=
  fun k => if k = f.name then m f.name ++ [f] else m k

/-- Processing of one archive by `main` (lines 172-182): on an extraction
error the archive is skipped (a warning is logged and the loop continues);
on success every record is appended into the grouping map. -/
def processArchive (fs : FSModel) (m : GroupMap) (p : GoStr) : GroupMap :=
  match inspectArchive fs p with
  | .error _ => m
  | .ok files => files.foldl addRecord m

/-- The grouping map `allFiles` accumulated by `main` over all discovered
archives in order. -/
def mainCollectAllFiles (fs : FSModel) (archives : List GoStr) : GroupMap :=
  archives.foldl (processArchive fs) (fun _ => [])

/-- Some sorted permutation of a list, used only to witness that a run of
`determineLatestReleases` always exists (any sorted permutation satisfies
`sortSliceSpec`); it is NOT a model of the Go sorting algorithm. -/
def someSortedPerm (vs : List FileRecord) : List FileRecord :=
  vs.insertionSort recLe

/-! ### Concrete data for witnesses and counterexamples -/

/-- Group key used by the C1 counterexample. -/
def cexName : GoStr := [107]

/-- Record builder for the C1 counterexample: all records share the group's
name (as grouping by `file.Name` guarantees) and differ in time and size. -/
def cexRec (t : Nat) (sz : Int) : FileRecord :=
  { name := cexName, modTime := t, archivePath := [97], archiveName := [97], size := sz }

/-- The tied-maximum record appearing EARLIER in the input order. -/
def cexEarlyMax : FileRecord := cexRec 20 100

/-- The tied-maximum record appearing LATER in the input order. -/
def cexLateMax : FileRecord := cexRec 20 200

/-- Eleven records with smaller, distinct times. -/
def cexMid : List FileRecord :=
  [cexRec 1 0, cexRec 2 0, cexRec 3 0, cexRec 4 0, cexRec 5 0, cexRec 6 0,
   cexRec 7 0, cexRec 8 0, cexRec 9 0, cexRec 10 0, cexRec 11 0]

/-- A 13-record group (beyond the insertion-sort cutoff of the Go sort, whose
quicksort path reorders equal elements) with two records tied at the maximal
time, the earlier-in-input one first. -/
def cexV : List FileRecord := cexEarlyMax :: (cexMid ++ [cexLateMax])

/-- A `sort.Slice`-compliant outcome for `cexV` (a sorted permutation) in
which the EARLIER tied-maximum record ends up last. -/
def cexY : List FileRecord := (cexMid ++ [cexLateMax]) ++ [cexEarlyMax]

/-- Grouping map holding only the group `cexV`. -/
def cexG : GroupMap := fun k => if k = cexName then cexV else []

/-- The same map after the in-place sort, for the outcome `cexY`. -/
def cexGAfter : GroupMap := fun k => if k = cexName then cexY else []

/-- The resolution map of that outcome. -/
def cexM : ResMap := fun k => if k = cexName then cexY.getLast? else none

/-- Group key used by the witnesses. -/
def wName : GoStr := [110]

/-- Witness record with the older time. -/
def w1 : FileRecord :=
  { name := wName, modTime := 1, archivePath := [97], archiveName := [97], size := 10 }

/-- Witness record with the newer time. -/
def w2 : FileRecord :=
  { name := wName, modTime := 2, archivePath := [98], archiveName := [98], size := 20 }

/-- Witness grouping map (newer record first, so the input is unsorted). -/
def wg0 : GroupMap := fun k => if k = wName then [w2, w1] else []

/-- The witness grouping map after sorting. -/
def wg1 : GroupMap := fun k => if k = wName then [w1, w2] else []

/-- The witness resolution map. -/
def wm : ResMap := fun k => if k = wName then some w2 else none

/-- The resolution map produced by the second witness run, written as the
sorted slice's last element. -/
def wmAlt : ResMap := fun k => if k = wName then [w1, w2].getLast? else none

/-- Tied-time witness records for the amended C1 theorem. -/
def tw1 : FileRecord :=
  { name := wName, modTime := 5, archivePath := [97], archiveName := [97], size := 1 }

/-- Second tied-time witness record. -/
def tw2 : FileRecord :=
  { name := wName, modTime := 5, archivePath := [98], archiveName := [98], size := 2 }

/-- Grouping map for the tied-time witness. -/
def twg : GroupMap := fun k => if k = wName then [tw1, tw2] else []

/-- Resolution map for the tied-time witness. -/
def twm : ResMap := fun k => if k = wName then some tw2 else none

/-- The tied-time witness resolution map, as the sorted slice's last
element. -/
def twmAlt : ResMap := fun k => if k = wName then [tw1, tw2].getLast? else none

/-- A 30-character, 60-byte name (thirty copies of a two-byte character) for
the C4 counterexample. -/
def alphaName : GoStr := List.flatten (List.replicate 30 [206, 177])

/-- Record produced by the extraction witness. -/
def wrec7 : FileRecord :=
  { name := [120], modTime := 7, archivePath := [97], archiveName := [97], size := 4 }

/-- Path of the successfully inspected archive in the C9 witness. -/
def wpGood : GoStr := [103]

/-- Path of the failing archive in the C9 witness. -/
def wpBad : GoStr := [98]

/-- Filesystem for the C9 witness: `wpGood` stats and opens fine with one
file entry; everything else fails. -/
def wfs : FSModel := fun p =>
  if p = wpGood then
    { stat := .ok 7, zipr := .ok [{ name := [110], isDir := false, size := 3 }] }
  else
    { stat := .error { msg := [] }, zipr := .error { msg := [] } }

/-- Discovered archives of the C9 witness, the failing one first. -/
def warchives : List GoStr := [wpBad, wpGood]

/-- The records extracted from the good archive of the C9 witness. -/
def wfiles : List FileRecord :=
  [{ name := [110], modTime := 7, archivePath := wpGood, archiveName := wpGood, size := 3 }]

/-! ### Helper lemmas -/

/-- Whatever `getLast?` returns is a member of the list. -/
theorem mem_of_getLast_eq {α : Type _} :
    ∀ {ys : List α} {r : α}, ys.getLast? = some r → r ∈ ys
  | [], _, h => by simp at h
  | [a], r, h => by
    simp only [List.getLast?_singleton, Option.some.injEq] at h
    simp [h]
  | a :: b :: t, r, h => by
    rw [List.getLast?_cons_cons] at h
    exact List.mem_cons_of_mem a (mem_of_getLast_eq h)

/-- In a list sorted for `recLe`, every member's `modTime` is at most the last
element's. -/
theorem sorted_le_getLast :
    ∀ {ys : List FileRecord} {x r : FileRecord}, ys.Sorted recLe → x ∈ ys →
      ys.getLast? = some r → x.modTime ≤ r.modTime
  | [], _, _, _, hx, _ => by simp at hx
  | [a], x, r, _, hx, hr => by
    simp only [List.getLast?_singleton, Option.some.injEq] at hr
    simp only [List.mem_singleton] at hx
    simp [hx, hr]
  | a :: b :: t, x, r, hs, hx, hr => by
    rw [List.getLast?_cons_cons] at hr
    rcases List.mem_cons.mp hx with hxa | hxt
    · have har : r ∈ b :: t := mem_of_getLast_eq hr
      have := (List.sorted_cons.mp hs).1 r har
      simpa [hxa] using this
    · exact sorted_le_getLast (List.sorted_cons.mp hs).2 hxt hr

/-- A run of `determineLatestReleases` on a single-group map, given any
compliant sort outcome for that group. -/
theorem dlr_if (nm : GoStr) (vs ys : List FileRecord) (h : sortSliceSpec vs ys) :
    determineLatestReleases (fun k => if k = nm then vs else [])
      (fun k => if k = nm then ys else [])
      (fun k => if k = nm then ys.getLast? else none) := by
  intro k
  by_cases hk : k = nm
  · subst hk
    constructor
    · simpa using h
    · simp
  · simp only [if_neg hk]
    exact ⟨⟨List.Perm.refl _, List.sorted_nil, fun _ => rfl⟩, rfl⟩

/-- Any list has a compliant sort outcome. -/
theorem sortSliceSpec_someSortedPerm (vs : List FileRecord) :
    sortSliceSpec vs (someSortedPerm vs) :=
  ⟨List.perm_insertionSort recLe vs, List.sorted_insertionSort recLe vs,
    fun h => h.insertionSort_eq⟩

/-- A run of `determineLatestReleases` exists for every grouping map. -/
theorem exists_determineLatestReleases (g : GroupMap) :
    determineLatestReleases g (fun k => someSortedPerm (g k))
      (fun k => (someSortedPerm (g k)).getLast?) :=
  fun k => ⟨sortSliceSpec_someSortedPerm (g k), rfl⟩

/-- Appending a record into the grouping map preserves existing membership. -/
theorem mem_addRecord (m : GroupMap) (g : FileRecord) (k : GoStr) (x : FileRecord)
    (hx : x ∈ m k) : x ∈ addRecord m g k := by
  unfold addRecord
  by_cases hk : k = g.name
  · subst hk
    rw [if_pos rfl]
    exact List.mem_append_left _ hx
  · rw [if_neg hk]
    exact hx

/-- Folding records into the grouping map preserves existing membership. -/
theorem mem_foldl_addRecord (files : List FileRecord) (m : GroupMap) (k : GoStr)
    (x : FileRecord) (hx : x ∈ m k) : x ∈ files.foldl addRecord m k := by
  induction files generalizing m with
  | nil => exact hx
  | cons a t ih => exact ih (addRecord m a) (mem_addRecord m a k x hx)

/-- Every record folded into the grouping map is present at its name. -/
theorem self_mem_foldl_addRecord (files : List FileRecord) (m : GroupMap) (f : FileRecord)
    (hf : f ∈ files) : f ∈ files.foldl addRecord m f.name := by
  induction files generalizing m with
  | nil => simp at hf
  | cons a t ih =>
    rcases List.mem_cons.mp hf with rfl | hft
    · apply mem_foldl_addRecord t (addRecord m f) f.name f
      unfold addRecord
      rw [if_pos rfl]
      exact List.mem_append_right _ (List.mem_singleton_self f)
    · exact ih (addRecord m a) hft

/-- Processing one more archive preserves existing membership in the grouping
map (whether that archive succeeds or fails). -/
theorem mem_processArchive (fs : FSModel) (m : GroupMap) (p : GoStr) (k : GoStr)
    (x : FileRecord) (hx : x ∈ m k) : x ∈ processArchive fs m p k := by
  unfold processArchive
  cases inspectArchive fs p with
  | error e => exact hx
  | ok files => exact mem_foldl_addRecord files m k x hx

/-- Folding further archives preserves existing membership in the grouping
map. -/
theorem mem_foldl_processArchive (fs : FSModel) (archives : List GoStr) (m : GroupMap)
    (k : GoStr) (x : FileRecord) (hx : x ∈ m k) :
    x ∈ archives.foldl (processArchive fs) m k := by
  induction archives generalizing m with
  | nil => exact hx
  | cons a t ih => exact ih (processArchive fs m a) (mem_processArchive fs m a k x hx)

/-- A record extracted from any successfully inspected archive of the run is
present in the accumulated grouping map at its name. -/
theorem mem_mainCollectAllFiles (fs : FSModel) (p : GoStr) (files : List FileRecord)
    (f : FileRecord) (hok : inspectArchive fs p = .ok files) (hf : f ∈ files) :
    ∀ (archives : List GoStr) (m : GroupMap), p ∈ archives →
      f ∈ archives.foldl (processArchive fs) m f.name := by
  intro archives
  induction archives with
  | nil =>
    intro m hp
    simp at hp
  | cons a t ih =>
    intro m hp
    rcases List.mem_cons.mp hp with rfl | hpt
    · apply mem_foldl_processArchive fs t (processArchive fs m p) f.name f
      unfold processArchive
      rw [hok]
      exact self_mem_foldl_addRecord files m f hf
    · exact ih (processArchive fs m a) hpt

/-- C1 (counterexample): with two distinct records tied at the maximal
`modTime` in a 13-record group (beyond the Go sort's always-stable
insertion-sort regime), there is a `sort.Slice`-compliant run of
`determineLatestReleases` that selects the record appearing EARLIER in the
input order — not `cexLateMax`, the later-appearing one that the claimed
stable-sort-then-take-last rule (`specLastMaxRecord`) prescribes.  Since
`sort.Slice` is documented as not stable, the choice among tied records is
not determined, and the claim as stated fails. -/
theorem C1_counterexample :
    determineLatestReleases cexG cexGAfter cexM ∧
    cexM cexName = some cexEarlyMax ∧
    twoShareMax (cexG cexName) ∧
    specLastMaxRecord (cexG cexName) = some cexLateMax ∧
    cexEarlyMax ≠ cexLateMax :=
  ⟨dlr_if cexName cexV cexY (by decide), by decide, by decide, by decide, by decide⟩

/-- C1 (amended): for a name whose records include at least two distinct
records sharing the maximal `modTime`, every run of `determineLatestReleases`
selects a record of that group attaining the maximal `modTime`; which of the
tied records is selected is not determined (`sort.Slice` is not stable). -/
theorem C1_tie_break_maximal_amended
    (g gAfter : GroupMap) (m : ResMap) (k : GoStr) (r : FileRecord)
    (hrun : determineLatestReleases g gAfter m)
    (_htie : twoShareMax (g k))
    (hm : m k = some r) :
    r ∈ g k ∧ ∀ x ∈ g k, x.modTime ≤ r.modTime := by
  obtain ⟨⟨hperm, hsort, _⟩, hlast⟩ := hrun k
  have hr : (gAfter k).getLast? = some r := by
    rw [← hlast]
    exact hm
  exact ⟨hperm.mem_iff.mp (mem_of_getLast_eq hr),
    fun x hx => sorted_le_getLast hsort (hperm.mem_iff.mpr hx) hr⟩

/-- Witness for the amended C1 theorem at a concrete tied-time run. -/
theorem C1_tie_break_maximal_amended_witness :
    tw2 ∈ twg wName ∧ ∀ x ∈ twg wName, x.modTime ≤ tw2.modTime :=
  C1_tie_break_maximal_amended twg twg twmAlt wName tw2
    (dlr_if wName [tw1, tw2] [tw1, tw2] (by decide)) (by decide) (by decide)

/-- C2: for a name whose records have pairwise distinct modification times,
every run of `determineLatestReleases` selects for it the unique record with
the maximal `modTime` among its records. -/
theorem C2_distinct_times_selects_max
    (g gAfter : GroupMap) (m : ResMap) (k : GoStr) (r : FileRecord)
    (hrun : determineLatestReleases g gAfter m)
    (hdist : (g k).Pairwise (fun a b => a.modTime ≠ b.modTime))
    (hm : m k = some r) :
    r ∈ g k ∧ ∀ x ∈ g k, x.modTime ≤ r.modTime ∧ (x ≠ r → x.modTime < r.modTime) := by
  obtain ⟨⟨hperm, hsort, _⟩, hlast⟩ := hrun k
  have hr : (gAfter k).getLast? = some r := by
    rw [← hlast]
    exact hm
  have hrmem : r ∈ g k := hperm.mem_iff.mp (mem_of_getLast_eq hr)
  refine ⟨hrmem, fun x hx => ?_⟩
  have hxle : x.modTime ≤ r.modTime :=
    sorted_le_getLast hsort (hperm.mem_iff.mpr hx) hr
  refine ⟨hxle, fun hne => ?_⟩
  have hne2 : x.modTime ≠ r.modTime :=
    hdist.forall (fun a b h => h.symm) hx hrmem hne
  exact Nat.lt_of_le_of_ne hxle hne2

/-- Witness for C2 at a concrete two-record run with distinct times. -/
theorem C2_distinct_times_selects_max_witness :
    w2 ∈ wg0 wName ∧
      ∀ x ∈ wg0 wName, x.modTime ≤ w2.modTime ∧ (x ≠ w2 → x.modTime < w2.modTime) :=
  C2_distinct_times_selects_max wg0 wg1 wmAlt wName w2
    (dlr_if wName [w2, w1] [w1, w2] (by decide)) (by decide) (by decide)

/-- C8: running `determineLatestReleases` a second time on the grouping map
left behind by a first run (whose per-name slices are then already sorted)
returns the identical resolution map: the sort leaves sorted slices unchanged,
so the same last elements are selected.  The function is pure — the result is
fully determined by the (mutated) input map, with no hidden state. -/
theorem C8_resolve_idempotent
    (g g1 g2 : GroupMap) (m1 m2 : ResMap)
    (h1 : determineLatestReleases g g1 m1)
    (h2 : determineLatestReleases g1 g2 m2) :
    m2 = m1 := by
  funext k
  obtain ⟨⟨_, hsort1, _⟩, hm1⟩ := h1 k
  obtain ⟨⟨_, _, hfix⟩, hm2⟩ := h2 k
  rw [hm2, hfix hsort1, hm1]

/-- Witness for C8: a concrete first run from an unsorted group followed by a
second run over the sorted group yields the same resolution map. -/
theorem C8_resolve_idempotent_witness : wmAlt = wm :=
  C8_resolve_idempotent wg0 wg1 wg1 wm wmAlt
    (dlr_if wName [w2, w1] [w1, w2] (by decide) : determineLatestReleases wg0 wg1 wm)
    (dlr_if wName [w1, w2] [w1, w2] (by decide))

/-- C10: in every run of `determineLatestReleases`, the resolution map has an
entry exactly for the keys whose group is non-empty, and the stored record is
an element of that key's input group (the resolver never fabricates a record
and never fails on an empty group). -/
theorem C10_resolution_keys_values
    (g gAfter : GroupMap) (m : ResMap)
    (hrun : determineLatestReleases g gAfter m) :
    ∀ k, (m k = none ↔ g k = []) ∧ ∀ r, m k = some r → r ∈ g k := by
  intro k
  obtain ⟨⟨hperm, _, _⟩, hlast⟩ := hrun k
  constructor
  · rw [hlast, List.getLast?_eq_none_iff]
    constructor
    · intro h
      have hp : ([] : List FileRecord).Perm (g k) := h ▸ hperm
      exact hp.symm.eq_nil
    · intro h
      have hp : (gAfter k).Perm [] := h ▸ hperm
      exact hp.eq_nil
  · intro r hr
    have : (gAfter k).getLast? = some r := by
      rw [← hlast]
      exact hr
    exact hperm.mem_iff.mp (mem_of_getLast_eq this)

/-- Witness for C10 at a concrete run, read off at the witness key. -/
theorem C10_resolution_keys_values_witness :
    (wmAlt wName = none ↔ wg0 wName = []) ∧ ∀ r, wmAlt wName = some r → r ∈ wg0 wName :=
  C10_resolution_keys_values wg0 wg1 wmAlt
    (dlr_if wName [w2, w1] [w1, w2] (by decide)) wName

/-- C3 (counterexample): the divider line consists of dashes, but its length
(114) does NOT equal the header line's length: `len(header)` in the source
counts the bytes of the whole header string including its trailing newline
(114), while the header line itself is 113 bytes (88 characters, the header
containing two-byte Cyrillic text). -/
theorem C3_counterexample :
    divider.dropLast = List.replicate 114 45 ∧
    header.dropLast.length = 113 ∧
    goRuneCount header.dropLast = 88 ∧
    divider.dropLast.length ≠ header.dropLast.length :=
  ⟨by decide, by decide, by decide, by decide⟩

/-- C3 (amended): the divider line consists of dashes and its length equals
the BYTE length of the entire header string including its trailing newline —
one more than the header line's byte length, and distinct from the header's
character count. -/
theorem C3_divider_length_amended :
    divider.dropLast = List.replicate header.length 45 ∧
    header.length = header.dropLast.length + 1 ∧
    header.dropLast.length = 113 ∧
    goRuneCount header.dropLast = 88 :=
  ⟨by decide, by decide, by decide, by decide⟩

/-- C4 (amended): the truncation law of `truncateString`/`writeResultsToFile`
operates on BYTES, not characters: a name of more than 50 bytes is rendered
as its first 47 bytes followed by `"..."` (then space-padded to a width of 50
runes by `fmt`); a name of at most 50 bytes is rendered unchanged, space-padded
to a width of 50 runes. -/
theorem C4_truncation_byte_law (nm : GoStr) :
    (nm.length ≤ 50 → renderedNameField nm = nm ++ List.replicate (50 - goRuneCount nm) 32) ∧
    (50 < nm.length →
      renderedNameField nm =
        (nm.take 47 ++ strBytes ("...")) ++
          List.replicate (50 - goRuneCount (nm.take 47 ++ strBytes ("..."))) 32) := by
  constructor
  · intro h
    simp [renderedNameField, truncateString, padLeftJust, h]
  · intro h
    have h2 : ¬nm.length ≤ 50 := by omega
    simp [renderedNameField, truncateString, padLeftJust, h2]

/-- Witness for the amended C4 theorem at a concrete short name. -/
theorem C4_truncation_byte_law_witness :
    renderedNameField (strBytes ("a")) =
      strBytes ("a") ++ List.replicate (50 - goRuneCount (strBytes ("a"))) 32 :=
  (C4_truncation_byte_law (strBytes ("a"))).1 (by decide)

/-- C4 (counterexample): a name of 30 characters (60 bytes, thirty two-byte
characters) is at most 50 characters long, so the claim says the rendered
field is the name unchanged, left-justified to 50 characters; instead the
byte-based code truncates it at 47 bytes — splitting a character — and
appends `"..."`. -/
theorem C4_counterexample :
    goRuneCount alphaName = 30 ∧
    alphaName.length = 60 ∧
    renderedNameField alphaName ≠ padLeftJust alphaName 50 ∧
    renderedNameField alphaName =
      (alphaName.take 47 ++ strBytes ("...")) ++ List.replicate 23 32 :=
  ⟨by decide, by decide, by decide, by decide⟩

/-- C5: every record produced by a successful `extractFileInfoFromArchive`
carries as its `modTime` the archive's own filesystem modification time (the
`os.Stat` result), so all records of one archive share one identical
`modTime`. -/
theorem C5_modtime_from_archive_stat
    (archivePath : GoStr) (statResult : Except GoError Nat)
    (openResult : Except GoError (List ZipEntry)) (recs : List FileRecord)
    (h : extractFileInfoFromArchive archivePath statResult openResult = .ok recs) :
    ∀ r ∈ recs, statResult = .ok r.modTime ∧ ∀ q ∈ recs, q.modTime = r.modTime := by
  cases statResult with
  | error e => simp [extractFileInfoFromArchive] at h
  | ok mt =>
    cases openResult with
    | error e => simp [extractFileInfoFromArchive] at h
    | ok entries =>
      simp only [extractFileInfoFromArchive, Except.ok.injEq] at h
      subst h
      intro r hr
      rcases List.mem_map.mp hr with ⟨e, _, rfl⟩
      refine ⟨rfl, ?_⟩
      intro q hq
      rcases List.mem_map.mp hq with ⟨e2, _, rfl⟩
      rfl

/-- Witness for C5 at a concrete archive with one file entry. -/
theorem C5_modtime_from_archive_stat_witness :
    (Except.ok 7 : Except GoError Nat) = .ok wrec7.modTime ∧
      ∀ q ∈ [wrec7], q.modTime = wrec7.modTime :=
  C5_modtime_from_archive_stat [97] (.ok 7)
    (.ok [{ name := [120], isDir := false, size := 4 }]) [wrec7] rfl wrec7 (by decide)

/-- C6: every record produced by a successful `extractFileInfoFromArchive`
arises from a NON-directory entry of the archive (directory entries are
skipped and never become records), taking that entry's name and size
verbatim. -/
theorem C6_no_directory_records
    (archivePath : GoStr) (statResult : Except GoError Nat)
    (entries : List ZipEntry) (recs : List FileRecord)
    (h : extractFileInfoFromArchive archivePath statResult (.ok entries) = .ok recs) :
    ∀ r ∈ recs, ∃ e ∈ entries, e.isDir = false ∧ r.name = e.name ∧ r.size = e.size := by
  cases statResult with
  | error e => simp [extractFileInfoFromArchive] at h
  | ok mt =>
    simp only [extractFileInfoFromArchive, Except.ok.injEq] at h
    subst h
    intro r hr
    rcases List.mem_map.mp hr with ⟨e, he, rfl⟩
    have hf := List.mem_filter.mp he
    refine ⟨e, hf.1, ?_, rfl, rfl⟩
    simpa using hf.2

/-- Witness for C6 at a concrete archive with one directory and one file
entry. -/
theorem C6_no_directory_records_witness :
    ∃ e ∈ [({ name := [100], isDir := true, size := 0 } : ZipEntry),
        { name := [120], isDir := false, size := 4 }],
      e.isDir = false ∧ wrec7.name = e.name ∧ wrec7.size = e.size :=
  C6_no_directory_records [97] (.ok 7)
    [{ name := [100], isDir := true, size := 0 }, { name := [120], isDir := false, size := 4 }]
    [wrec7] rfl wrec7 (by decide)

/-- C7 (counterexample): the extraction code copies the entry name verbatim
and performs no emptiness check; a (ZIP-permitted) non-directory entry with an
empty stored name yields a record whose name is empty, so "name is never
empty" fails. -/
theorem C7_counterexample :
    extractFileInfoFromArchive [97] (.ok 5) (.ok [{ name := [], isDir := false, size := 9 }]) =
      .ok [{ name := [], modTime := 5, archivePath := [97], archiveName := [97], size := 9 }] ∧
    ({ name := [], modTime := 5, archivePath := [97], archiveName := [97], size := 9 } :
        FileRecord).name = [] :=
  ⟨rfl, rfl⟩

/-- C7 (amended): a record's name is the entry's stored name verbatim, so
every record of a successful extraction has a non-empty name PROVIDED every
non-directory entry of the archive has a non-empty stored name; the code
itself enforces no such invariant. -/
theorem C7_nonempty_names_amended
    (archivePath : GoStr) (statResult : Except GoError Nat)
    (entries : List ZipEntry) (recs : List FileRecord)
    (hnames : ∀ e ∈ entries, e.isDir = false → e.name ≠ [])
    (h : extractFileInfoFromArchive archivePath statResult (.ok entries) = .ok recs) :
    ∀ r ∈ recs, r.name ≠ [] := by
  cases statResult with
  | error e => simp [extractFileInfoFromArchive] at h
  | ok mt =>
    simp only [extractFileInfoFromArchive, Except.ok.injEq] at h
    subst h
    intro r hr
    rcases List.mem_map.mp hr with ⟨e, he, rfl⟩
    have hf := List.mem_filter.mp he
    exact hnames e hf.1 (by simpa using hf.2)

/-- Witness for the amended C7 theorem at a concrete archive. -/
theorem C7_nonempty_names_amended_witness : wrec7.name ≠ [] :=
  C7_nonempty_names_amended [97] (.ok 7) [{ name := [120], isDir := false, size := 4 }]
    [wrec7] (by decide) rfl wrec7 (by decide)

/-- C9: when some archives fail to open or inspect, `main` skips them and
continues: every record of every successfully inspected archive is present in
the accumulated grouping map at its name, the run still reaches resolution
(a run of `determineLatestReleases` on the accumulated map exists), and every
such record's name receives an entry in the resolution map and hence a row in
the report. -/
theorem C9_skip_failed_archive
    (fs : FSModel) (archives : List GoStr) (p : GoStr) (files : List FileRecord)
    (hp : p ∈ archives) (hok : inspectArchive fs p = .ok files) :
    (∀ f ∈ files, f ∈ mainCollectAllFiles fs archives f.name) ∧
    ∃ gAfter m, determineLatestReleases (mainCollectAllFiles fs archives) gAfter m ∧
      ∀ f ∈ files, ∃ r, m f.name = some r := by
  have hmem : ∀ f ∈ files, f ∈ mainCollectAllFiles fs archives f.name := by
    intro f hf
    exact mem_mainCollectAllFiles fs p files f hok hf archives (fun _ => []) hp
  refine ⟨hmem, ⟨fun k => someSortedPerm (mainCollectAllFiles fs archives k),
    fun k => (someSortedPerm (mainCollectAllFiles fs archives k)).getLast?,
    exists_determineLatestReleases _, ?_⟩⟩
  intro f hf
  have hne : someSortedPerm (mainCollectAllFiles fs archives f.name) ≠ [] := by
    intro h0
    have hperm := List.perm_insertionSort recLe (mainCollectAllFiles fs archives f.name)
    rw [someSortedPerm] at h0
    rw [h0] at hperm
    have : mainCollectAllFiles fs archives f.name = [] := hperm.symm.eq_nil
    have hmemf := hmem f hf
    rw [this] at hmemf
    simp at hmemf
  exact Option.ne_none_iff_exists'.mp fun hnone => hne (List.getLast?_eq_none_iff.mp hnone)

/-- Witness for C9: two discovered archives, the first failing to stat and
open, the second inspecting successfully with one record. -/
theorem C9_skip_failed_archive_witness :
    (∀ f ∈ wfiles, f ∈ mainCollectAllFiles wfs warchives f.name) ∧
    ∃ gAfter m, determineLatestReleases (mainCollectAllFiles wfs warchives) gAfter m ∧
      ∀ f ∈ wfiles, ∃ r, m f.name = some r :=
  C9_skip_failed_archive wfs warchives wpGood wfiles (by decide) rfl
